import Mathlib

/-!
Shallow embedding of the generic binary heap implemented in
`src/exercises/algorithm/algorithm9.rs`, together with proofs of the
spec-level properties: sorted extraction, invariant preservation, count
correctness, empty extraction, in-bounds storage access, termination
bounds, the concrete round-trip scenario, child-selection tie-breaking,
the count/storage-length relation, and irrelevance of the sentinel slot.

The Rust `Heap<T>` stores a 1-based implicit binary tree in a `Vec<T>`
whose index 0 is an unused sentinel (`T::default()`), a `count` of live
elements, and a comparator `fn(&T, &T) -> bool`.  Lists model the vector;
`getI`/`setI`/`swapI` model (total) indexing, with separate checked
(`Option`-valued) variants that return `none` exactly when Rust indexing
would panic, used to prove that no out-of-bounds access occurs.
-/

set_option linter.unusedVariables false

/-- Total model of the Rust read `items[i]`: out-of-range reads yield
`default` here; the checked variant `getC` below accounts for panics. -/
def getI {α : Type} [Inhabited α] (l : List α) (i : Nat) : α :=
  l.getD i default

/-- Total model of the Rust write `items[i] = v` (`List.set` is a no-op out
of range; the checked variant `setC` accounts for panics). -/
def setI {α : Type} (l : List α) (i : Nat) (v : α) : List α :=
  l.set i v

/-- Model of `Vec::swap(i, j)`. -/
def swapI {α : Type} [Inhabited α] (l : List α) (i j : Nat) : List α :=
  setI (setI l i (getI l j)) j (getI l i)

/-- The heap record: `count` live elements, backing vector `items`
(1-based, sentinel at index 0), and the comparator.  Mirrors the Rust
struct `Heap<T>` field for field. -/
structure Heap (α : Type) where
  count : Nat
  items : List α
  comparator : α → α → Bool

/-- Rust `Heap::new(comparator)`: zero elements, single sentinel slot. -/
def Heap.new {α : Type} [Inhabited α] (comparator : α → α → Bool) : Heap α :=
  { count := 0, items := [default], comparator := comparator }

/-- Rust `Heap::len`. -/
def Heap.len {α : Type} (h : Heap α) : Nat :=
  h.count

/-- Rust `Heap::is_empty`. -/
def Heap.is_empty {α : Type} (h : Heap α) : Bool :=
  h.len == 0

/-- Rust `Heap::parent_idx`. -/
def Heap.parent_idx {α : Type} (h : Heap α) (idx : Nat) : Nat :=
  idx / 2

/-- Rust `Heap::left_child_idx`. -/
def Heap.left_child_idx {α : Type} (h : Heap α) (idx : Nat) : Nat :=
  idx * 2

/-- Rust `Heap::right_child_idx`. -/
def Heap.right_child_idx {α : Type} (h : Heap α) (idx : Nat) : Nat :=
  h.left_child_idx idx + 1

/-- Rust `Heap::children_present`. -/
def Heap.children_present {α : Type} (h : Heap α) (idx : Nat) : Prop :=
  h.left_child_idx idx ≤ h.count

/-- Body of `Heap::smallest_child_idx`, abstracted over the fields it
reads (`comparator`, `items`, `count`) so it can also describe the
intermediate states inside the sift-down loop. -/
def smallestChild {α : Type} [Inhabited α] (cmp : α → α → Bool)
    (items : List α) (count idx : Nat) : Nat :=
  let left_child_idx := idx * 2
  let right_child_idx := idx * 2 + 1
  if right_child_idx ≤ count ∧
      cmp (getI items right_child_idx) (getI items left_child_idx) = true then
    right_child_idx
  else
    left_child_idx

/-- Rust `Heap::smallest_child_idx`. -/
def Heap.smallest_child_idx {α : Type} [Inhabited α] (h : Heap α) (idx : Nat) : Nat :=
  smallestChild h.comparator h.items h.count idx

/-- The bubble-up loop inside `Heap::add`: while `current_idx > 1` and the
comparator favours `current_value` over its parent, the parent is copied
down and the index moves to the parent; finally `current_value` is stored
at the resting index. -/
def siftUp {α : Type} [Inhabited α] (cmp : α → α → Bool) (current_value : α) :
    List α → Nat → List α := fun items current_idx =>
  if h : 1 < current_idx ∧ cmp current_value (getI items (current_idx / 2)) = true then
    siftUp cmp current_value
      (setI items current_idx (getI items (current_idx / 2))) (current_idx / 2)
  else
    setI items current_idx current_value
termination_by _ current_idx => current_idx
decreasing_by exact Nat.div_lt_self (Nat.lt_of_lt_of_le Nat.zero_lt_one (Nat.le_of_lt h.1)) Nat.one_lt_two

/-- Rust `Heap::add`: push the value, bump `count`, read the pushed value
back (`items[count]`), then bubble up. -/
def Heap.add {α : Type} [Inhabited α] (h : Heap α) (value : α) : Heap α :=
  let items := h.items ++ [value]
  let count := h.count + 1
  { h with count := count, items := siftUp h.comparator (getI items count) items count }

/-- The bubble-down loop inside `Iterator::next`: while the node has a
live left child, pick the comparator-favoured child; swap and descend if
that child is favoured over the current node, else stop.  The extra
`1 ≤ idx` conjunct is required for termination of the recursion at the
argument `idx = 0`, which the code never reaches: the loop starts at
index 1 and every child index is at least 2, so the conjunct never
changes the computed result. -/
def siftDown {α : Type} [Inhabited α] (cmp : α → α → Bool) (count : Nat) :
    List α → Nat → List α := fun items idx =>
  if h : 1 ≤ idx ∧ idx * 2 ≤ count then
    let c := smallestChild cmp items count idx
    if cmp (getI items c) (getI items idx) = true then
      siftDown cmp count (swapI items idx c) c
    else
      items
  else
    items
termination_by _ idx => count + 1 - idx
decreasing_by
  simp only [smallestChild]
  split
  all_goals omega

/-- Rust `Iterator::next` for `Heap<T>`: on an empty heap return `None`
and leave the state alone; otherwise capture the root, swap it with the
last live element, pop, decrement `count`, and bubble down from index 1.
Returned as (extracted value, updated heap). -/
def Heap.next {α : Type} [Inhabited α] (h : Heap α) : Option α × Heap α :=
  if h.is_empty then
    (none, h)
  else
    let root_value := getI h.items 1
    let swapped := swapI h.items 1 h.count
    let popped := swapped.dropLast
    let count := h.count - 1
    (some root_value, { h with count := count, items := siftDown h.comparator count popped 1 })

/-- Rust `Heap::new_min`: comparator `|a, b| a < b`. -/
def Heap.new_min {α : Type} [Inhabited α] [LinearOrder α] : Heap α :=
  Heap.new (fun a b => decide (a < b))

/-- Rust `Heap::new_max`: comparator `|a, b| a > b`. -/
def Heap.new_max {α : Type} [Inhabited α] [LinearOrder α] : Heap α :=
  Heap.new (fun a b => decide (a > b))

/-- Rust `MinHeap::new` (same body as `Heap::new_min`). -/
def MinHeap.new {α : Type} [Inhabited α] [LinearOrder α] : Heap α :=
  Heap.new (fun a b => decide (a < b))

/-- Rust `MaxHeap::new` (same body as `Heap::new_max`). -/
def MaxHeap.new {α : Type} [Inhabited α] [LinearOrder α] : Heap α :=
  Heap.new (fun a b => decide (a > b))

/-- Checked model of the Rust read `items[i]`: `none` exactly when Rust
indexing would panic. -/
def getC {α : Type} (l : List α) (i : Nat) : Option α :=
  l[i]?

/-- Checked model of the Rust write `items[i] = v`. -/
def setC {α : Type} (l : List α) (i : Nat) (v : α) : Option (List α) :=
  if i < l.length then some (l.set i v) else none

/-- Checked model of `Vec::swap(i, j)`. -/
def swapC {α : Type} [Inhabited α] (l : List α) (i j : Nat) : Option (List α) :=
  if i < l.length ∧ j < l.length then some (swapI l i j) else none

/-- Checked bubble-up loop: every read and write of the Rust loop in
`Heap::add` is bounds-checked, in evaluation order. -/
def siftUpC {α : Type} [Inhabited α] (cmp : α → α → Bool) (current_value : α) :
    List α → Nat → Option (List α) := fun items current_idx =>
  if h : 1 < current_idx then
    match getC items (current_idx / 2) with
    | none => none
    | some parent =>
      if cmp current_value parent = true then
        match setC items current_idx parent with
        | none => none
        | some items2 => siftUpC cmp current_value items2 (current_idx / 2)
      else
        setC items current_idx current_value
  else
    setC items current_idx current_value
termination_by _ current_idx => current_idx
decreasing_by exact Nat.div_lt_self (Nat.lt_of_lt_of_le Nat.zero_lt_one (Nat.le_of_lt h)) Nat.one_lt_two

/-- Checked `Heap::add`: the read `items[count]` of the freshly pushed
value, then the checked bubble-up. -/
def Heap.addC {α : Type} [Inhabited α] (h : Heap α) (value : α) : Option (Heap α) :=
  let items := h.items ++ [value]
  let count := h.count + 1
  match getC items count with
  | none => none
  | some current_value =>
    match siftUpC h.comparator current_value items count with
    | none => none
    | some items2 => some { h with count := count, items := items2 }

/-- Checked `Heap::smallest_child_idx`: reads `items[right]` and
`items[left]` only when `right ≤ count` (the Rust short-circuit `&&`). -/
def smallestChildC {α : Type} (cmp : α → α → Bool)
    (items : List α) (count idx : Nat) : Option Nat :=
  let left_child_idx := idx * 2
  let right_child_idx := idx * 2 + 1
  if right_child_idx ≤ count then
    match getC items right_child_idx, getC items left_child_idx with
    | some rv, some lv => some (if cmp rv lv = true then right_child_idx else left_child_idx)
    | _, _ => none
  else
    some left_child_idx

/-- Checked bubble-down loop of `Iterator::next` (same unreachable
`1 ≤ idx` guard as `siftDown`). -/
def siftDownC {α : Type} [Inhabited α] (cmp : α → α → Bool) (count : Nat) :
    List α → Nat → Option (List α) := fun items idx =>
  if h : 1 ≤ idx ∧ idx * 2 ≤ count then
    match hsc : smallestChildC cmp items count idx with
    | none => none
    | some c =>
      match getC items c, getC items idx with
      | some cv, some iv =>
        if cmp cv iv = true then
          match swapC items idx c with
          | none => none
          | some items2 => siftDownC cmp count items2 c
        else
          some items
      | _, _ => none
  else
    some items
termination_by _ idx => count + 1 - idx
decreasing_by
  simp only [smallestChildC] at hsc
  split at hsc
  case _ =>
    split at hsc
    case _ => simp only [Option.some.injEq] at hsc; split at hsc <;> omega
    case _ => exact absurd hsc (by simp)
  case _ => simp only [Option.some.injEq] at hsc; omega

/-- Checked `Iterator::next`: the root read, the swap with the last live
element, the pop (never panics), and the checked bubble-down. -/
def Heap.nextC {α : Type} [Inhabited α] (h : Heap α) : Option (Option α × Heap α) :=
  if h.is_empty then
    some (none, h)
  else
    match getC h.items 1 with
    | none => none
    | some root_value =>
      match swapC h.items 1 h.count with
      | none => none
      | some swapped =>
        let popped := swapped.dropLast
        let count := h.count - 1
        match siftDownC h.comparator count popped 1 with
        | none => none
        | some items2 => some (some root_value, { h with count := count, items := items2 })

/-- Fuel-indexed bubble-up loop: `none` when the iteration budget runs
out, used to bound the number of loop iterations. -/
def siftUpFuel {α : Type} [Inhabited α] (cmp : α → α → Bool) (current_value : α) :
    Nat → List α → Nat → Option (List α)
  | 0, _, _ => none
  | fuel + 1, items, current_idx =>
    if 1 < current_idx ∧ cmp current_value (getI items (current_idx / 2)) = true then
      siftUpFuel cmp current_value fuel
        (setI items current_idx (getI items (current_idx / 2))) (current_idx / 2)
    else
      some (setI items current_idx current_value)

/-- Fuel-indexed bubble-down loop. -/
def siftDownFuel {α : Type} [Inhabited α] (cmp : α → α → Bool) (count : Nat) :
    Nat → List α → Nat → Option (List α)
  | 0, _, _ => none
  | fuel + 1, items, idx =>
    if 1 ≤ idx ∧ idx * 2 ≤ count then
      let c := smallestChild cmp items count idx
      if cmp (getI items c) (getI items idx) = true then
        siftDownFuel cmp count fuel (swapI items idx c) c
      else
        some items
    else
      some items

/-- An operation of the public mutating interface. -/
inductive Op (α : Type) where
  | add (value : α)
  | extract

/-- Run a sequence of operations (`add value` calls `Heap::add`,
`extract` calls `Iterator::next` and keeps the updated heap). -/
def runOps {α : Type} [Inhabited α] (h : Heap α) : List (Op α) → Heap α
  | [] => h
  | Op.add v :: ops => runOps (h.add v) ops
  | Op.extract :: ops => runOps (h.next).2 ops

/-- Run a sequence of operations through the checked semantics; `none`
means some step performed an out-of-bounds storage access. -/
def runOpsC {α : Type} [Inhabited α] (h : Heap α) : List (Op α) → Option (Heap α)
  | [] => some h
  | Op.add v :: ops =>
    match h.addC v with
    | none => none
    | some h2 => runOpsC h2 ops
  | Op.extract :: ops =>
    match h.nextC with
    | none => none
    | some (_, h2) => runOpsC h2 ops

/-- Number of `add` operations in a sequence. -/
def numAdds {α : Type} : List (Op α) → Nat
  | [] => 0
  | Op.add _ :: ops => numAdds ops + 1
  | Op.extract :: ops => numAdds ops

/-- Number of successful extractions (calls to `Iterator::next` that
return `Some`) when running a sequence from `h`. -/
def numHits {α : Type} [Inhabited α] (h : Heap α) : List (Op α) → Nat
  | [] => 0
  | Op.add v :: ops => numHits (h.add v) ops
  | Op.extract :: ops => (if (h.next).1.isSome then 1 else 0) + numHits (h.next).2 ops

/-- A query or mutation of the full public interface, for observational
equivalence statements. -/
inductive QOp (α : Type) where
  | len
  | is_empty
  | add (value : α)
  | extract

/-- One observable return value. -/
inductive Obs (α : Type) where
  | nat (n : Nat)
  | bool (b : Bool)
  | unit
  | extracted (o : Option α)
deriving DecidableEq

/-- The trace of return values produced by running a sequence of public
operations against a heap. -/
def runTrace {α : Type} [Inhabited α] (h : Heap α) : List (QOp α) → List (Obs α)
  | [] => []
  | QOp.len :: ops => Obs.nat h.len :: runTrace h ops
  | QOp.is_empty :: ops => Obs.bool h.is_empty :: runTrace h ops
  | QOp.add v :: ops => Obs.unit :: runTrace (h.add v) ops
  | QOp.extract :: ops => Obs.extracted (h.next).1 :: runTrace (h.next).2 ops

/-- Insert a list of values, one `add` at a time. -/
def pushAll {α : Type} [Inhabited α] (h : Heap α) (l : List α) : Heap α :=
  l.foldl Heap.add h

/-- Extract up to `fuel` values by repeated `Iterator::next`, stopping at
the first `None`. -/
def drainFuel {α : Type} [Inhabited α] : Nat → Heap α → List α
  | 0, _ => []
  | fuel + 1, h =>
    match h.next with
    | (none, _) => []
    | (some v, h2) => v :: drainFuel fuel h2

/-- Extract every element by repeated `Iterator::next` until `None`
(`h.count` successful calls always drain the heap). -/
def drain {α : Type} [Inhabited α] (h : Heap α) : List α :=
  drainFuel h.count h

/-- The live elements, in storage order: `items[1] .. items[count]`. -/
def liveList {α : Type} [Inhabited α] (h : Heap α) : List α :=
  (List.range h.count).map (fun k => getI h.items (k + 1))

/-- Storage-size relation maintained by the code: exactly one sentinel
slot plus the live elements. -/
def sizeInv {α : Type} (h : Heap α) : Prop :=
  h.count + 1 = h.items.length

/-- The heap invariant over an arbitrary comparator/storage/count triple:
no live child is strictly favoured over its parent. -/
def heapList {α : Type} [Inhabited α] (cmp : α → α → Bool) (items : List α) (count : Nat) : Prop :=
  ∀ i c, 1 ≤ i → (c = 2 * i ∨ c = 2 * i + 1) → c ≤ count →
    cmp (getI items c) (getI items i) = false

/-- The heap invariant of a heap value. -/
def heapInvariant {α : Type} [Inhabited α] (h : Heap α) : Prop :=
  heapList h.comparator h.items h.count

/-- Strict weak ordering, stated on a boolean comparator: asymmetry,
transitivity, and transitivity of incomparability. -/
structure IsSWO {α : Type} (cmp : α → α → Bool) : Prop where
  asymm : ∀ a b, cmp a b = true → cmp b a = false
  trans : ∀ a b c, cmp a b = true → cmp b c = true → cmp a c = true
  incomp_trans : ∀ a b c, cmp a b = false → cmp b a = false →
    cmp b c = false → cmp c b = false → cmp a c = false

/-- The non-strict relation induced by a comparator: `b` is not strictly
favoured over `a`.  For the `new_min` comparator this is `a ≤ b`, for the
`new_max` comparator it is `b ≤ a`. -/
def below {α : Type} (cmp : α → α → Bool) (a b : α) : Prop :=
  cmp b a = false

theorem getI_eq_getElem {α : Type} [Inhabited α] {l : List α} {i : Nat} (hi : i < l.length) :
    getI l i = l[i] :=
  List.getD_eq_getElem l default hi

theorem length_setI {α : Type} (l : List α) (i : Nat) (v : α) :
    (setI l i v).length = l.length :=
  List.length_set l i v

theorem getI_setI_self {α : Type} [Inhabited α] {l : List α} {i : Nat} (hi : i < l.length) (v : α) :
    getI (setI l i v) i = v := by
  simp [getI, setI, List.getD_eq_getElem?_getD, List.getElem?_set_self hi]

theorem getI_setI_ne {α : Type} [Inhabited α] {l : List α} {i j : Nat} (hij : i ≠ j) (v : α) :
    getI (setI l i v) j = getI l j := by
  simp [getI, setI, List.getD_eq_getElem?_getD, List.getElem?_set_ne hij]

theorem setI_getI_self {α : Type} [Inhabited α] {l : List α} {i : Nat} (hi : i < l.length) :
    setI l i (getI l i) = l := by
  apply List.ext_getElem?
  intro n
  by_cases hn : i = n
  · subst hn
    simp [setI, List.getElem?_set_self hi, getI_eq_getElem hi, List.getElem?_eq_getElem hi]
  · simp [setI, List.getElem?_set_ne hn]

theorem length_swapI {α : Type} [Inhabited α] (l : List α) (i j : Nat) :
    (swapI l i j).length = l.length := by
  simp [swapI, setI]

theorem getI_swapI_fst {α : Type} [Inhabited α] {l : List α} {i j : Nat}
    (hi : i < l.length) (hj : j < l.length) : getI (swapI l i j) i = getI l j := by
  by_cases hij : j = i
  · subst hij
    exact getI_setI_self (by rw [length_setI]; exact hj) (getI l j)
  · rw [swapI, getI_setI_ne hij, getI_setI_self hi]

theorem getI_swapI_snd {α : Type} [Inhabited α] {l : List α} {i j : Nat}
    (hj : j < l.length) : getI (swapI l i j) j = getI l i :=
  getI_setI_self (by rw [length_setI]; exact hj) (getI l i)

theorem getI_swapI_other {α : Type} [Inhabited α] {l : List α} {i j k : Nat}
    (hki : i ≠ k) (hkj : j ≠ k) : getI (swapI l i j) k = getI l k := by
  rw [swapI, getI_setI_ne hkj, getI_setI_ne hki]

theorem getI_append_left {α : Type} [Inhabited α] {l : List α} {j : Nat}
    (hj : j < l.length) (v : α) : getI (l ++ [v]) j = getI l j := by
  rw [getI_eq_getElem (by simp; omega), getI_eq_getElem hj]
  exact List.getElem_append_left hj

theorem getI_append_self {α : Type} [Inhabited α] (l : List α) (v : α) :
    getI (l ++ [v]) l.length = v := by
  rw [getI_eq_getElem (by simp)]
  simp

theorem siftUp_length {α : Type} [Inhabited α] (cmp : α → α → Bool) (v : α) :
    ∀ (items : List α) (i : Nat), (siftUp cmp v items i).length = items.length := by
  intro items i
  induction items, i using siftUp.induct cmp v with
  | case1 items i hg IH =>
    rw [siftUp, dif_pos hg, IH]
    simp [setI]
  | case2 items i hg =>
    rw [siftUp, dif_neg hg]
    simp [setI]

theorem siftDown_length {α : Type} [Inhabited α] (cmp : α → α → Bool) (count : Nat) :
    ∀ (items : List α) (i : Nat), (siftDown cmp count items i).length = items.length := by
  intro items i
  induction items, i using siftDown.induct cmp count with
  | case1 items i hg c hc IH =>
    rw [siftDown, dif_pos hg, if_pos hc, IH, length_swapI]
  | case2 items i hg c hc =>
    rw [siftDown, dif_pos hg, if_neg hc]
  | case3 items i hg =>
    rw [siftDown, dif_neg hg]

theorem Heap.add_count {α : Type} [Inhabited α] (h : Heap α) (v : α) :
    (h.add v).count = h.count + 1 :=
  rfl

theorem Heap.add_comparator {α : Type} [Inhabited α] (h : Heap α) (v : α) :
    (h.add v).comparator = h.comparator :=
  rfl

theorem Heap.add_items {α : Type} [Inhabited α] (h : Heap α) (v : α) :
    (h.add v).items =
      siftUp h.comparator (getI (h.items ++ [v]) (h.count + 1)) (h.items ++ [v]) (h.count + 1) :=
  rfl

theorem Heap.add_items_length {α : Type} [Inhabited α] (h : Heap α) (v : α) :
    (h.add v).items.length = h.items.length + 1 := by
  rw [Heap.add_items, siftUp_length]
  simp

theorem Heap.next_of_empty {α : Type} [Inhabited α] (h : Heap α) (hc : h.count = 0) :
    h.next = (none, h) := by
  simp [Heap.next, Heap.is_empty, Heap.len, hc]

theorem Heap.next_of_pos {α : Type} [Inhabited α] (h : Heap α) (hc : h.count ≠ 0) :
    h.next = (some (getI h.items 1),
      { h with count := h.count - 1,
               items := siftDown h.comparator (h.count - 1)
                 ((swapI h.items 1 h.count).dropLast) 1 }) := by
  simp [Heap.next, Heap.is_empty, Heap.len, hc]

theorem Heap.next_snd_count {α : Type} [Inhabited α] (h : Heap α) :
    (h.next).2.count = h.count - 1 ∨ (h.count = 0 ∧ (h.next).2 = h) := by
  by_cases hc : h.count = 0
  · right
    exact ⟨hc, by rw [Heap.next_of_empty h hc]⟩
  · left
    rw [Heap.next_of_pos h hc]

theorem Heap.next_fst_isSome {α : Type} [Inhabited α] (h : Heap α) :
    (h.next).1.isSome = true ↔ h.count ≠ 0 := by
  by_cases hc : h.count = 0
  · rw [Heap.next_of_empty h hc]
    simp [hc]
  · rw [Heap.next_of_pos h hc]
    simp [hc]

theorem Heap.next_snd_comparator {α : Type} [Inhabited α] (h : Heap α) :
    (h.next).2.comparator = h.comparator := by
  by_cases hc : h.count = 0
  · rw [Heap.next_of_empty h hc]
  · rw [Heap.next_of_pos h hc]

theorem sizeInv_new {α : Type} [Inhabited α] (cmp : α → α → Bool) :
    sizeInv (Heap.new cmp) := by
  simp [sizeInv, Heap.new]

theorem sizeInv_add {α : Type} [Inhabited α] {h : Heap α} (hs : sizeInv h) (v : α) :
    sizeInv (h.add v) := by
  rw [sizeInv, Heap.add_count, Heap.add_items_length]
  rw [sizeInv] at hs
  omega

theorem sizeInv_next {α : Type} [Inhabited α] {h : Heap α} (hs : sizeInv h) :
    sizeInv (h.next).2 := by
  by_cases hc : h.count = 0
  · rw [Heap.next_of_empty h hc]
    exact hs
  · rw [Heap.next_of_pos h hc]
    rw [sizeInv] at hs ⊢
    simp only [siftDown_length, List.length_dropLast, length_swapI]
    omega

theorem sizeInv_runOps {α : Type} [Inhabited α] {h : Heap α} (hs : sizeInv h) :
    ∀ ops : List (Op α), sizeInv (runOps h ops) := by
  intro ops
  induction ops generalizing h with
  | nil => exact hs
  | cons op ops IH =>
    cases op with
    | add v => exact IH (sizeInv_add hs v)
    | extract => exact IH (sizeInv_next hs)

theorem count_runOps {α : Type} [Inhabited α] (h : Heap α) (ops : List (Op α)) :
    (runOps h ops).count + numHits h ops = h.count + numAdds ops := by
  induction ops generalizing h with
  | nil => simp [runOps, numHits, numAdds]
  | cons op ops IH =>
    cases op with
    | add v =>
      simp only [runOps, numHits, numAdds]
      rw [IH (h.add v), Heap.add_count]
      omega
    | extract =>
      simp only [runOps, numHits, numAdds]
      have IH2 := IH (h.next).2
      by_cases hc : h.count = 0
      · have he : h.next = (none, h) := Heap.next_of_empty h hc
        rw [he] at IH2 ⊢
        dsimp only [Option.isSome_none] at IH2 ⊢
        rw [show (if (false : Bool) = true then 1 else 0) = 0 from rfl]
        omega
      · have he := Heap.next_of_pos h hc
        rw [he] at IH2 ⊢
        dsimp only [Option.isSome_some] at IH2 ⊢
        rw [show (if (true : Bool) = true then 1 else 0) = 1 from rfl]
        omega

theorem numHits_le {α : Type} [Inhabited α] (h : Heap α) (ops : List (Op α)) :
    numHits h ops ≤ h.count + numAdds ops := by
  have := count_runOps h ops
  omega

theorem getI_dropLast {α : Type} [Inhabited α] {l : List α} {k : Nat}
    (hk : k < l.length - 1) : getI l.dropLast k = getI l k := by
  rw [getI_eq_getElem (by rw [List.length_dropLast]; exact hk),
    getI_eq_getElem (by omega)]
  exact List.getElem_dropLast l k (by rw [List.length_dropLast]; exact hk)

theorem IsSWO.irrefl {α : Type} {cmp : α → α → Bool} (hs : IsSWO cmp) (a : α) :
    cmp a a = false := by
  cases hb : cmp a a with
  | false => rfl
  | true => exact hb.symm.trans (hs.asymm a a hb)

theorem IsSWO.negTrans {α : Type} {cmp : α → α → Bool} (hs : IsSWO cmp) {a b c : α}
    (hac : cmp a c = true) : cmp a b = true ∨ cmp b c = true := by
  cases hab : cmp a b with
  | true => exact Or.inl rfl
  | false =>
    cases hbc : cmp b c with
    | true => exact Or.inr rfl
    | false =>
      exfalso
      have hba : cmp b a = false := by
        cases hba : cmp b a with
        | false => rfl
        | true => exact absurd (hs.trans b a c hba hac) (by rw [hbc]; simp)
      have hcb : cmp c b = false := by
        cases hcb : cmp c b with
        | false => rfl
        | true => exact absurd (hs.trans a c b hac hcb) (by rw [hab]; simp)
      exact absurd (hs.incomp_trans a b c hab hba hbc hcb) (by rw [hac]; simp)

theorem smallestChild_cases {α : Type} [Inhabited α] (cmp : α → α → Bool)
    (items : List α) (count idx : Nat) :
    (smallestChild cmp items count idx = idx * 2 ∧
      (idx * 2 + 1 ≤ count → cmp (getI items (idx * 2 + 1)) (getI items (idx * 2)) = false)) ∨
    (smallestChild cmp items count idx = idx * 2 + 1 ∧ idx * 2 + 1 ≤ count ∧
      cmp (getI items (idx * 2 + 1)) (getI items (idx * 2)) = true) := by
  rw [smallestChild]
  split
  case isTrue hcond => exact Or.inr ⟨rfl, hcond.1, hcond.2⟩
  case isFalse hcond =>
    push_neg at hcond
    refine Or.inl ⟨rfl, fun hle => ?_⟩
    cases hb : cmp (getI items (idx * 2 + 1)) (getI items (idx * 2)) with
    | false => rfl
    | true => exact absurd hb (by simpa using hcond hle)

theorem siftUp_restores {α : Type} [Inhabited α] {cmp : α → α → Bool} (hs : IsSWO cmp)
    (count : Nat) (v : α) :
    ∀ (i : Nat) (items : List α), 1 ≤ i → i ≤ count → count < items.length →
    (∀ j c, 1 ≤ j → j ≠ i → (c = 2 * j ∨ c = 2 * j + 1) → c ≤ count → c ≠ i →
        cmp (getI items c) (getI items j) = false) →
    (∀ c, (c = 2 * i ∨ c = 2 * i + 1) → c ≤ count → cmp (getI items c) v = false) →
    (2 ≤ i → ∀ c, (c = 2 * i ∨ c = 2 * i + 1) → c ≤ count →
        cmp (getI items c) (getI items (i / 2)) = false) →
    heapList cmp (siftUp cmp v items i) count := by
  intro i
  induction i using Nat.strong_induction_on with
  | _ i IH =>
    intro items h1 hic hlen pairs holech grand
    rw [siftUp]
    split
    case isTrue hcond =>
      have h2i : 1 < i := hcond.1
      have hp1 : 1 ≤ i / 2 := by omega
      have hpi : i / 2 < i := by omega
      have hchild_i : i = 2 * (i / 2) ∨ i = 2 * (i / 2) + 1 := by omega
      apply IH (i / 2) hpi _ hp1 (by omega) (by rw [length_setI]; exact hlen)
      · -- pairs for the shifted state, hole now at i / 2
        intro j c hj hjne hch hc hcne
        by_cases hji : j = i
        · subst hji
          rw [getI_setI_self (by omega) _, getI_setI_ne (by omega)]
          exact grand (by omega) c hch hc
        · have hci : c ≠ i := by
            intro hcv
            exact hjne (by omega)
          rw [getI_setI_ne (by omega), getI_setI_ne (by omega)]
          exact pairs j c hj hji hch hc hci
      · -- children of the new hole versus the sifted value
        intro c hch hc
        by_cases hci : c = i
        · subst hci
          rw [getI_setI_self (by omega)]
          exact hs.asymm _ _ hcond.2
        · rw [getI_setI_ne (by omega)]
          cases hb : cmp (getI items c) v with
          | false => rfl
          | true =>
            exfalso
            have h3 : cmp (getI items c) (getI items (i / 2)) = true :=
              hs.trans _ _ _ hb hcond.2
            have h4 : cmp (getI items c) (getI items (i / 2)) = false :=
              pairs (i / 2) c hp1 (by omega) hch hc hci
            rw [h3] at h4
            exact Bool.noConfusion h4
      · -- grandparent condition at the new hole
        intro hp2 c hch hc
        have hpp : cmp (getI items (i / 2)) (getI items (i / 2 / 2)) = false := by
          apply pairs (i / 2 / 2) (i / 2) (by omega) (by omega) (by omega) (by omega) (by omega)
        rw [getI_setI_ne (show i ≠ i / 2 / 2 by omega)]
        by_cases hci : c = i
        · subst hci
          rw [getI_setI_self (by omega)]
          exact hpp
        · rw [getI_setI_ne (by omega)]
          cases hb : cmp (getI items c) (getI items (i / 2 / 2)) with
          | false => rfl
          | true =>
            exfalso
            have hcp : cmp (getI items c) (getI items (i / 2)) = false :=
              pairs (i / 2) c hp1 (by omega) hch hc hci
            rcases hs.negTrans hb (b := getI items (i / 2)) with h | h
            · rw [h] at hcp
              exact Bool.noConfusion hcp
            · rw [h] at hpp
              exact Bool.noConfusion hpp
    case isFalse hcond =>
      intro j c hj hch hc
      by_cases hci : c = i
      · have hji : j = i / 2 := by omega
        have h2i : 2 ≤ i := by omega
        have hv : cmp v (getI items (i / 2)) = false := by
          cases hb : cmp v (getI items (i / 2)) with
          | false => rfl
          | true => exact absurd ⟨by omega, hb⟩ hcond
        subst hci hji
        rw [getI_setI_self (by omega), getI_setI_ne (by omega)]
        exact hv
      · by_cases hji : j = i
        · subst hji
          rw [getI_setI_ne (by omega), getI_setI_self (by omega)]
          exact holech c hch hc
        · rw [getI_setI_ne (by omega), getI_setI_ne (by omega)]
          exact pairs j c hj hji hch hc hci

theorem siftDown_restores {α : Type} [Inhabited α] {cmp : α → α → Bool} (hs : IsSWO cmp)
    (count : Nat) :
    ∀ (n : Nat) (items : List α) (i : Nat), count + 1 - i ≤ n → 1 ≤ i → count < items.length →
    (∀ j c, 1 ≤ j → j ≠ i → (c = 2 * j ∨ c = 2 * j + 1) → c ≤ count →
        cmp (getI items c) (getI items j) = false) →
    (2 ≤ i → ∀ c, (c = 2 * i ∨ c = 2 * i + 1) → c ≤ count →
        cmp (getI items c) (getI items (i / 2)) = false) →
    heapList cmp (siftDown cmp count items i) count := by
  intro n
  induction n with
  | zero =>
    intro items i hn h1 hlen pairs grand
    rw [siftDown, dif_neg (by omega)]
    intro j c hj hch hc
    by_cases hji : j = i
    · omega
    · exact pairs j c hj hji hch hc
  | succ n IHn =>
    intro items i hn h1 hlen pairs grand
    rw [siftDown]
    by_cases hg : 1 ≤ i ∧ i * 2 ≤ count
    · rw [dif_pos hg]
      have hicount : i ≤ count := by omega
      have hilen : i < items.length := by omega
      rcases smallestChild_cases cmp items count i with ⟨hceq, hother⟩ | ⟨hceq, hle, hfav⟩
      · -- the left child is selected
        rw [mul_comm i 2] at hceq hother
        rw [hceq]
        have hclen : 2 * i < items.length := by omega
        have hine : i ≠ 2 * i := by omega
        by_cases hc : cmp (getI items (2 * i)) (getI items i) = true
        · rw [if_pos hc]
          apply IHn (swapI items i (2 * i)) (2 * i) (by omega) (by omega)
            (by rw [length_swapI]; exact hlen)
          · intro j cc hj hjne hch hcle
            by_cases hji : j = i
            · subst hji
              rw [getI_swapI_fst hilen hclen]
              rcases hch with hcc | hcc
              · subst hcc
                rw [getI_swapI_snd hclen]
                exact hs.asymm _ _ hc
              · subst hcc
                rw [getI_swapI_other (by omega) (by omega)]
                exact hother (by omega)
            · by_cases hcci : cc = i
              · have hj2 : j = i / 2 := by omega
                have h2i : 2 ≤ i := by omega
                rw [hcci, getI_swapI_fst hilen hclen, getI_swapI_other (by omega) (by omega)]
                rw [hj2]
                exact grand h2i (2 * i) (Or.inl rfl) (by omega)
              · have hcc2 : cc ≠ 2 * i := by
                  intro hv
                  exact hji (by omega)
                rw [getI_swapI_other (by omega) (by omega),
                  getI_swapI_other (by omega) (by omega)]
                exact pairs j cc hj hji hch hcle
          · intro h2c cc hch hcle
            rw [show 2 * i / 2 = i from by omega, getI_swapI_fst hilen hclen,
              getI_swapI_other (by omega) (by omega)]
            exact pairs (2 * i) cc (by omega) (by omega) hch hcle
        · rw [if_neg hc]
          have hcf : cmp (getI items (2 * i)) (getI items i) = false := by
            cases hb : cmp (getI items (2 * i)) (getI items i) with
            | false => rfl
            | true => exact absurd hb hc
          intro j cc hj hch hcle
          by_cases hji : j = i
          · subst hji
            rcases hch with hcc | hcc
            · subst hcc
              exact hcf
            · subst hcc
              cases hb : cmp (getI items (2 * j + 1)) (getI items j) with
              | false => rfl
              | true =>
                exfalso
                rcases hs.negTrans hb (b := getI items (2 * j)) with hx | hx
                · rw [hother (by omega)] at hx
                  exact Bool.noConfusion hx
                · rw [hcf] at hx
                  exact Bool.noConfusion hx
          · exact pairs j cc hj hji hch hcle
      · -- the right child is selected
        rw [mul_comm i 2] at hceq hle hfav
        rw [hceq]
        have hllen : 2 * i < items.length := by omega
        have hrlen : 2 * i + 1 < items.length := by omega
        by_cases hc : cmp (getI items (2 * i + 1)) (getI items i) = true
        · rw [if_pos hc]
          apply IHn (swapI items i (2 * i + 1)) (2 * i + 1) (by omega) (by omega)
            (by rw [length_swapI]; exact hlen)
          · intro j cc hj hjne hch hcle
            by_cases hji : j = i
            · subst hji
              rw [getI_swapI_fst hilen hrlen]
              rcases hch with hcc | hcc
              · subst hcc
                rw [getI_swapI_other (by omega) (by omega)]
                exact hs.asymm _ _ hfav
              · subst hcc
                rw [getI_swapI_snd hrlen]
                exact hs.asymm _ _ hc
            · by_cases hcci : cc = i
              · have hj2 : j = i / 2 := by omega
                have h2i : 2 ≤ i := by omega
                rw [hcci, getI_swapI_fst hilen hrlen, getI_swapI_other (by omega) (by omega)]
                rw [hj2]
                exact grand h2i (2 * i + 1) (Or.inr rfl) (by omega)
              · have hcc2 : cc ≠ 2 * i + 1 := by
                  intro hv
                  exact hji (by omega)
                rw [getI_swapI_other (by omega) (by omega),
                  getI_swapI_other (by omega) (by omega)]
                exact pairs j cc hj hji hch hcle
          · intro h2c cc hch hcle
            rw [show (2 * i + 1) / 2 = i from by omega, getI_swapI_fst hilen hrlen,
              getI_swapI_other (by omega) (by omega)]
            exact pairs (2 * i + 1) cc (by omega) (by omega) hch hcle
        · rw [if_neg hc]
          have hcf : cmp (getI items (2 * i + 1)) (getI items i) = false := by
            cases hb : cmp (getI items (2 * i + 1)) (getI items i) with
            | false => rfl
            | true => exact absurd hb hc
          intro j cc hj hch hcle
          by_cases hji : j = i
          · subst hji
            rcases hch with hcc | hcc
            · subst hcc
              cases hb : cmp (getI items (2 * j)) (getI items j) with
              | false => rfl
              | true =>
                exfalso
                have hx : cmp (getI items (2 * j + 1)) (getI items j) = true :=
                  hs.trans _ _ _ hfav hb
                rw [hcf] at hx
                exact Bool.noConfusion hx
            · subst hcc
              exact hcf
          · exact pairs j cc hj hji hch hcle
    · rw [dif_neg hg]
      intro j cc hj hch hcle
      by_cases hji : j = i
      · omega
      · exact pairs j cc hj hji hch hcle

theorem heapInvariant_new {α : Type} [Inhabited α] (cmp : α → α → Bool) :
    heapInvariant (Heap.new cmp) := by
  intro j c hj hch hc
  simp only [Heap.new] at hc
  omega

theorem heapInvariant_add {α : Type} [Inhabited α] {h : Heap α}
    (hs : IsSWO h.comparator) (hsize : sizeInv h) (hinv : heapInvariant h) (v : α) :
    heapInvariant (h.add v) := by
  have hlen : h.items.length = h.count + 1 := hsize.symm
  rw [heapInvariant, Heap.add_items, Heap.add_comparator, Heap.add_count]
  apply siftUp_restores hs (h.count + 1) _ (h.count + 1) (h.items ++ [v])
    (by omega) (le_refl _) (by simp; omega)
  · intro j c hj hjne hch hc hcne
    rw [getI_append_left (by omega), getI_append_left (by omega)]
    exact hinv j c hj hch (by omega)
  · intro c hch hc
    exact absurd hc (by omega)
  · intro h2 c hch hc
    exact absurd hc (by omega)

theorem heapInvariant_next {α : Type} [Inhabited α] {h : Heap α}
    (hs : IsSWO h.comparator) (hsize : sizeInv h) (hinv : heapInvariant h) :
    heapInvariant (h.next).2 := by
  by_cases hc : h.count = 0
  · rw [Heap.next_of_empty h hc]
    exact hinv
  · have hlen : h.items.length = h.count + 1 := hsize.symm
    rw [Heap.next_of_pos h hc, heapInvariant]
    dsimp only
    have hslen : (swapI h.items 1 h.count).length = h.count + 1 := by
      rw [length_swapI, hlen]
    apply siftDown_restores hs (h.count - 1) h.count _ 1 (by omega) (le_refl 1)
      (by rw [List.length_dropLast, hslen]; omega)
    · intro j c hj hjne hch hcle
      have hcd : c < (swapI h.items 1 h.count).length - 1 := by omega
      have hjd : j < (swapI h.items 1 h.count).length - 1 := by omega
      rw [getI_dropLast hcd, getI_dropLast hjd,
        getI_swapI_other (by omega) (by omega),
        getI_swapI_other (by omega) (by omega)]
      exact hinv j c hj hch (by omega)
    · intro h2 c hch hcle
      exact absurd h2 (by omega)

theorem runOps_heapInvariant {α : Type} [Inhabited α] :
    ∀ (ops : List (Op α)) (h : Heap α), IsSWO h.comparator → sizeInv h → heapInvariant h →
      heapInvariant (runOps h ops) := by
  intro ops
  induction ops with
  | nil => exact fun h _ _ hinv => hinv
  | cons op ops IH =>
    intro h hs hsize hinv
    cases op with
    | add v =>
      exact IH (h.add v) (by rw [Heap.add_comparator]; exact hs) (sizeInv_add hsize v)
        (heapInvariant_add hs hsize hinv v)
    | extract =>
      exact IH (h.next).2 (by rw [Heap.next_snd_comparator]; exact hs) (sizeInv_next hsize)
        (heapInvariant_next hs hsize hinv)

theorem perm_set_set {α : Type} [Inhabited α] {l : List α} {i j : Nat}
    (hi : i < l.length) (hj : j < l.length) (hij : i ≠ j) (w : α) :
    List.Perm (setI (setI l i (getI l j)) j w) (setI l i w) := by
  classical
  rw [List.perm_iff_count]
  intro a
  have hj2 : j < (setI l i (getI l j)).length := by rw [length_setI]; exact hj
  have e1 : List.count a (setI (setI l i (getI l j)) j w) =
      (List.count a (setI l i (getI l j)) - if ((setI l i (getI l j))[j] == a) = true then 1 else 0)
        + if (w == a) = true then 1 else 0 :=
    List.count_set w a (setI l i (getI l j)) j hj2
  have e2 : List.count a (setI l i (getI l j)) =
      (List.count a l - if (l[i] == a) = true then 1 else 0)
        + if ((getI l j) == a) = true then 1 else 0 :=
    List.count_set (getI l j) a l i hi
  have e3 : List.count a (setI l i w) =
      (List.count a l - if (l[i] == a) = true then 1 else 0)
        + if (w == a) = true then 1 else 0 :=
    List.count_set w a l i hi
  have e4 : (setI l i (getI l j))[j] = l[j] := by
    have := List.getElem_set_ne (l := l) (i := i) (j := j) hij (a := getI l j) (by rw [List.length_set]; exact hj)
    simpa [setI] using this
  have e5 : getI l j = l[j] := getI_eq_getElem hj
  have hcnt : l[i] = a → 1 ≤ List.count a l := by
    intro hia
    have : a ∈ l := by rw [← hia]; exact List.getElem_mem hi
    exact List.count_pos_iff.mpr this
  rw [e1, e2, e3, e4, e5]
  simp only [beq_iff_eq]
  split_ifs <;> simp_all

theorem siftUp_perm {α : Type} [Inhabited α] (cmp : α → α → Bool) (v : α) :
    ∀ (items : List α) (i : Nat), 1 ≤ i → i < items.length →
      List.Perm (siftUp cmp v items i) (setI items i v) := by
  intro items i
  induction items, i using siftUp.induct cmp v with
  | case1 items i hg IH =>
    intro h1 hlen
    rw [siftUp, dif_pos hg]
    have hp : i / 2 < items.length := by omega
    refine (IH (by omega) (by rw [length_setI]; exact hp)).trans ?_
    exact perm_set_set hlen hp (by omega) v
  | case2 items i hg =>
    intro h1 hlen
    rw [siftUp, dif_neg hg]

theorem swapI_perm {α : Type} [Inhabited α] {l : List α} {i j : Nat}
    (hi : i < l.length) (hj : j < l.length) :
    List.Perm (swapI l i j) l := by
  by_cases hij : i = j
  · subst hij
    rw [swapI]
    have e : setI l i (getI l i) = l := setI_getI_self hi
    rw [e, e]
  · have := perm_set_set hi hj hij (getI l i)
    rw [swapI]
    rw [setI_getI_self hi] at this
    exact this

theorem siftDown_perm {α : Type} [Inhabited α] (cmp : α → α → Bool) (count : Nat) :
    ∀ (n : Nat) (items : List α) (i : Nat), count + 1 - i ≤ n → 1 ≤ i → count < items.length →
      List.Perm (siftDown cmp count items i) items := by
  intro n
  induction n with
  | zero =>
    intro items i hn h1 hlen
    rw [siftDown, dif_neg (by omega)]
  | succ n IHn =>
    intro items i hn h1 hlen
    rw [siftDown]
    by_cases hg : 1 ≤ i ∧ i * 2 ≤ count
    · rw [dif_pos hg]
      have hcb : i * 2 ≤ smallestChild cmp items count i ∧ smallestChild cmp items count i ≤ count := by
        rcases smallestChild_cases cmp items count i with ⟨hceq, _⟩ | ⟨hceq, hle, _⟩ <;> omega
      by_cases hc : cmp (getI items (smallestChild cmp items count i)) (getI items i) = true
      · rw [if_pos hc]
        refine (IHn _ _ (by omega) (by omega)
          (by rw [length_swapI]; exact hlen)).trans ?_
        exact swapI_perm (by omega) (by omega)
      · rw [if_neg hc]
    · rw [dif_neg hg]

theorem getI_siftUp_zero {α : Type} [Inhabited α] (cmp : α → α → Bool) (v : α) :
    ∀ (items : List α) (i : Nat), 1 ≤ i →
      getI (siftUp cmp v items i) 0 = getI items 0 := by
  intro items i
  induction items, i using siftUp.induct cmp v with
  | case1 items i hg IH =>
    intro h1
    rw [siftUp, dif_pos hg, IH (by omega), getI_setI_ne (by omega)]
  | case2 items i hg =>
    intro h1
    rw [siftUp, dif_neg hg, getI_setI_ne (by omega)]

theorem getI_siftDown_zero {α : Type} [Inhabited α] (cmp : α → α → Bool) (count : Nat) :
    ∀ (n : Nat) (items : List α) (i : Nat), count + 1 - i ≤ n → 1 ≤ i →
      getI (siftDown cmp count items i) 0 = getI items 0 := by
  intro n
  induction n with
  | zero =>
    intro items i hn h1
    rw [siftDown, dif_neg (by omega)]
  | succ n IHn =>
    intro items i hn h1
    rw [siftDown]
    by_cases hg : 1 ≤ i ∧ i * 2 ≤ count
    · rw [dif_pos hg]
      have hcb : i * 2 ≤ smallestChild cmp items count i ∧ smallestChild cmp items count i ≤ count := by
        rcases smallestChild_cases cmp items count i with ⟨hceq, _⟩ | ⟨hceq, hle, _⟩ <;> omega
      by_cases hc : cmp (getI items (smallestChild cmp items count i)) (getI items i) = true
      · rw [if_pos hc, IHn _ _ (by omega) (by omega),
          getI_swapI_other (by omega) (by omega)]
      · rw [if_neg hc]
    · rw [dif_neg hg]

theorem perm_tail {α : Type} [Inhabited α] {l₁ l₂ : List α} (h : List.Perm l₁ l₂)
    (h1 : 0 < l₁.length) (hh : getI l₁ 0 = getI l₂ 0) :
    List.Perm l₁.tail l₂.tail := by
  have h2 : 0 < l₂.length := h.length_eq ▸ h1
  cases l₁ with
  | nil => simp at h1
  | cons a t₁ =>
    cases l₂ with
    | nil => simp at h2
    | cons b t₂ =>
      have hab : a = b := by simpa [getI] using hh
      subst hab
      exact h.cons_inv

theorem liveList_length {α : Type} [Inhabited α] (h : Heap α) :
    (liveList h).length = h.count := by
  simp [liveList]

theorem liveList_eq_tail {α : Type} [Inhabited α] {h : Heap α} (hsize : sizeInv h) :
    liveList h = h.items.tail := by
  apply List.ext_getElem
  · rw [liveList_length, List.length_tail]
    rw [sizeInv] at hsize
    omega
  · intro n h₁ h₂
    rw [List.getElem_tail]
    rw [liveList_length] at h₁
    have hn : n + 1 < h.items.length := by
      rw [sizeInv] at hsize
      omega
    calc (liveList h)[n] = getI h.items (n + 1) := by
          simp only [liveList]
          rw [List.getElem_map, List.getElem_range]
      _ = h.items[n + 1] := getI_eq_getElem hn

theorem mem_liveList {α : Type} [Inhabited α] {h : Heap α} {b : α} :
    b ∈ liveList h ↔ ∃ j, 1 ≤ j ∧ j ≤ h.count ∧ getI h.items j = b := by
  rw [liveList]
  constructor
  · intro hb
    rcases List.mem_map.mp hb with ⟨k, hk, hfk⟩
    exact ⟨k + 1, by omega, by have := List.mem_range.mp hk; omega, hfk⟩
  · intro ⟨j, hj1, hj2, hjv⟩
    apply List.mem_map.mpr
    exact ⟨j - 1, List.mem_range.mpr (by omega), by rw [show j - 1 + 1 = j from by omega]; exact hjv⟩

theorem tail_append_singleton {α : Type} {l : List α} (v : α) (hl : l ≠ []) :
    (l ++ [v]).tail = l.tail ++ [v] := by
  cases l with
  | nil => exact absurd rfl hl
  | cons a t => simp

theorem liveList_add_perm {α : Type} [Inhabited α] {h : Heap α} (hsize : sizeInv h) (v : α) :
    List.Perm (liveList (h.add v)) (v :: liveList h) := by
  have hlen : h.items.length = h.count + 1 := hsize.symm
  have hne : h.items.length ≠ 0 := by omega
  have hplen : (h.items ++ [v]).length = h.count + 2 := by simp; omega
  have hfull : List.Perm (h.add v).items (h.items ++ [v]) := by
    rw [Heap.add_items]
    have hp := siftUp_perm h.comparator (getI (h.items ++ [v]) (h.count + 1))
      (h.items ++ [v]) (h.count + 1) (by omega) (by omega)
    rwa [setI_getI_self (by omega)] at hp
  have hhead : getI (h.add v).items 0 = getI (h.items ++ [v]) 0 := by
    rw [Heap.add_items]
    exact getI_siftUp_zero h.comparator _ (h.items ++ [v]) (h.count + 1) (by omega)
  have htail := perm_tail hfull (by rw [Heap.add_items, siftUp_length]; simp) hhead
  rw [liveList_eq_tail (sizeInv_add hsize v), liveList_eq_tail hsize]
  refine htail.trans ?_
  rw [tail_append_singleton v (by intro hx; exact hne (by rw [hx]; rfl))]
  exact List.perm_append_singleton v h.items.tail

theorem liveList_next_perm {α : Type} [Inhabited α] {h : Heap α} (hsize : sizeInv h)
    (hc : h.count ≠ 0) :
    List.Perm (getI h.items 1 :: liveList (h.next).2) (liveList h) := by
  have hlen : h.items.length = h.count + 1 := hsize.symm
  have hslen : (swapI h.items 1 h.count).length = h.count + 1 := by rw [length_swapI]; omega
  have hsne : swapI h.items 1 h.count ≠ [] := by
    apply List.length_pos.mp
    rw [hslen]
    omega
  have hlast : (swapI h.items 1 h.count).getLast hsne = getI h.items 1 := by
    rw [List.getLast_eq_getElem, ← getI_eq_getElem (by omega)]
    rw [hslen, show h.count + 1 - 1 = h.count from by omega]
    exact getI_swapI_snd (by omega)
  have hdecomp : (swapI h.items 1 h.count).dropLast ++ [getI h.items 1] = swapI h.items 1 h.count := by
    rw [← hlast]
    exact List.dropLast_append_getLast hsne
  have hswap : List.Perm (swapI h.items 1 h.count) h.items :=
    swapI_perm (by omega) (by omega)
  have hhead0 : getI (swapI h.items 1 h.count) 0 = getI h.items 0 :=
    getI_swapI_other (by omega) (by omega)
  -- tail of the swapped array is a permutation of the tail of the original
  have htail : List.Perm (swapI h.items 1 h.count).tail h.items.tail :=
    perm_tail hswap (by omega) hhead0
  have hplen : (swapI h.items 1 h.count).dropLast.length = h.count := by
    rw [List.length_dropLast, hslen]
    omega
  have hpne : (swapI h.items 1 h.count).dropLast.length ≠ 0 := by omega
  -- the popped storage, with the extracted root appended, has the swapped tail
  have htail2 : (swapI h.items 1 h.count).tail =
      (swapI h.items 1 h.count).dropLast.tail ++ [getI h.items 1] := by
    conv_lhs => rw [← hdecomp]
    rw [tail_append_singleton _ (by intro hx; exact hpne (by rw [hx]; rfl))]
  -- now relate the final heap state to the popped storage
  have hnext := Heap.next_of_pos h hc
  have hsd : (h.next).2.items =
      siftDown h.comparator (h.count - 1) ((swapI h.items 1 h.count).dropLast) 1 := by
    rw [hnext]
  have hsdperm : List.Perm (h.next).2.items ((swapI h.items 1 h.count).dropLast) := by
    rw [hsd]
    exact siftDown_perm h.comparator (h.count - 1) (h.count) _ 1 (by omega) (by omega) (by omega)
  have hsdhead : getI (h.next).2.items 0 = getI ((swapI h.items 1 h.count).dropLast) 0 := by
    rw [hsd]
    exact getI_siftDown_zero h.comparator (h.count - 1) (h.count) _ 1 (by omega) (by omega)
  have hfinaltail : List.Perm (h.next).2.items.tail ((swapI h.items 1 h.count).dropLast).tail := by
    apply perm_tail hsdperm _ hsdhead
    rw [hsd, siftDown_length, hplen]
    omega
  rw [liveList_eq_tail (sizeInv_next hsize), liveList_eq_tail hsize]
  have step1 : List.Perm (getI h.items 1 :: (h.next).2.items.tail)
      ((swapI h.items 1 h.count).dropLast.tail ++ [getI h.items 1]) :=
    (hfinaltail.cons _).trans (List.perm_append_singleton _ _).symm
  rw [← htail2] at step1
  exact step1.trans htail

theorem root_below {α : Type} [Inhabited α] {cmp : α → α → Bool} (hs : IsSWO cmp)
    {items : List α} {count : Nat} (hinv : heapList cmp items count) :
    ∀ j, 1 ≤ j → j ≤ count → cmp (getI items j) (getI items 1) = false := by
  intro j
  induction j using Nat.strong_induction_on with
  | _ j IH =>
    intro h1 hle
    by_cases hj1 : j = 1
    · subst hj1
      exact hs.irrefl _
    · have h2 : 2 ≤ j := by omega
      have hparent : cmp (getI items j) (getI items (j / 2)) = false :=
        hinv (j / 2) j (by omega) (by omega) hle
      have hup : cmp (getI items (j / 2)) (getI items 1) = false :=
        IH (j / 2) (by omega) (by omega) (by omega)
      cases hb : cmp (getI items j) (getI items 1) with
      | false => rfl
      | true =>
        exfalso
        rcases hs.negTrans hb (b := getI items (j / 2)) with hx | hx
        · rw [hparent] at hx
          exact Bool.noConfusion hx
        · rw [hup] at hx
          exact Bool.noConfusion hx

theorem liveList_of_count_zero {α : Type} [Inhabited α] {h : Heap α} (hc : h.count = 0) :
    liveList h = [] := by
  rw [liveList, hc]
  rfl

theorem drainFuel_sorted_perm {α : Type} [Inhabited α] :
    ∀ (n : Nat) (h : Heap α), IsSWO h.comparator → sizeInv h → heapInvariant h → h.count ≤ n →
      List.Sorted (below h.comparator) (drainFuel n h) ∧
        List.Perm (drainFuel n h) (liveList h) := by
  intro n
  induction n with
  | zero =>
    intro h hs hsize hinv hle
    rw [drainFuel, liveList_of_count_zero (by omega)]
    exact ⟨List.sorted_nil, List.Perm.refl _⟩
  | succ n IHn =>
    intro h hs hsize hinv hle
    by_cases hc : h.count = 0
    · rw [show drainFuel (n + 1) h = [] from by rw [drainFuel, Heap.next_of_empty h hc],
        liveList_of_count_zero hc]
      exact ⟨List.sorted_nil, List.Perm.refl _⟩
    · have hnext := Heap.next_of_pos h hc
      have heq : drainFuel (n + 1) h = getI h.items 1 :: drainFuel n (h.next).2 := by
        rw [drainFuel, hnext]
      have hcount2 : (h.next).2.count = h.count - 1 := by
        rw [hnext]
      obtain ⟨hsort, hperm⟩ := IHn (h.next).2
        (by rw [Heap.next_snd_comparator]; exact hs)
        (sizeInv_next hsize) (heapInvariant_next hs hsize hinv)
        (by rw [hcount2]; omega)
      rw [heq]
      have hcmp2 : (h.next).2.comparator = h.comparator := Heap.next_snd_comparator h
      constructor
      · rw [List.sorted_cons]
        refine ⟨?_, by rw [← hcmp2]; exact hsort⟩
        intro b hb
        have hb2 : b ∈ liveList (h.next).2 := (hperm.mem_iff).mp hb
        have hb3 : b ∈ liveList h :=
          ((liveList_next_perm hsize hc).mem_iff).mp (List.mem_cons_of_mem _ hb2)
        rcases mem_liveList.mp hb3 with ⟨j, hj1, hj2, hjv⟩
        rw [below, ← hjv]
        exact root_below hs hinv j hj1 hj2
      · exact (hperm.cons _).trans (liveList_next_perm hsize hc)

theorem isSWO_lt {α : Type} [LinearOrder α] : IsSWO (fun a b : α => decide (a < b)) := by
  constructor
  · intro a b hab
    simp only [decide_eq_true_eq] at hab
    simp only [decide_eq_false_iff_not]
    exact lt_asymm hab
  · intro a b c hab hbc
    simp only [decide_eq_true_eq] at hab hbc
    simp only [decide_eq_true_eq]
    exact lt_trans hab hbc
  · intro a b c hab hba hbc hcb
    simp only [decide_eq_false_iff_not] at hab hba hbc hcb
    simp only [decide_eq_false_iff_not]
    have he1 : a = b := le_antisymm (le_of_not_lt hba) (le_of_not_lt hab)
    have he2 : b = c := le_antisymm (le_of_not_lt hcb) (le_of_not_lt hbc)
    rw [he1, he2]
    exact lt_irrefl c

theorem isSWO_gt {α : Type} [LinearOrder α] : IsSWO (fun a b : α => decide (a > b)) := by
  constructor
  · intro a b hab
    simp only [decide_eq_true_eq] at hab
    simp only [decide_eq_false_iff_not]
    exact lt_asymm hab
  · intro a b c hab hbc
    simp only [decide_eq_true_eq] at hab hbc
    simp only [decide_eq_true_eq]
    exact lt_trans hbc hab
  · intro a b c hab hba hbc hcb
    simp only [decide_eq_false_iff_not] at hab hba hbc hcb
    simp only [decide_eq_false_iff_not]
    have he1 : a = b := le_antisymm (le_of_not_lt hab) (le_of_not_lt hba)
    have he2 : b = c := le_antisymm (le_of_not_lt hbc) (le_of_not_lt hcb)
    rw [he1, he2]
    exact lt_irrefl c

theorem pushAll_comparator {α : Type} [Inhabited α] :
    ∀ (l : List α) (h : Heap α), (pushAll h l).comparator = h.comparator := by
  intro l
  induction l with
  | nil => exact fun h => rfl
  | cons x l IH =>
    intro h
    rw [show pushAll h (x :: l) = pushAll (h.add x) l from rfl]
    rw [IH (h.add x), Heap.add_comparator]

theorem pushAll_sizeInv {α : Type} [Inhabited α] :
    ∀ (l : List α) (h : Heap α), sizeInv h → sizeInv (pushAll h l) := by
  intro l
  induction l with
  | nil => exact fun h hs => hs
  | cons x l IH =>
    intro h hs
    rw [show pushAll h (x :: l) = pushAll (h.add x) l from rfl]
    exact IH (h.add x) (sizeInv_add hs x)

theorem pushAll_heapInvariant {α : Type} [Inhabited α] :
    ∀ (l : List α) (h : Heap α), IsSWO h.comparator → sizeInv h → heapInvariant h →
      heapInvariant (pushAll h l) := by
  intro l
  induction l with
  | nil => exact fun h _ _ hinv => hinv
  | cons x l IH =>
    intro h hs hsize hinv
    rw [show pushAll h (x :: l) = pushAll (h.add x) l from rfl]
    exact IH (h.add x) (by rw [Heap.add_comparator]; exact hs) (sizeInv_add hsize x)
      (heapInvariant_add hs hsize hinv x)

theorem pushAll_liveList_perm {α : Type} [Inhabited α] :
    ∀ (l : List α) (h : Heap α), sizeInv h →
      List.Perm (liveList (pushAll h l)) (l ++ liveList h) := by
  intro l
  induction l with
  | nil => exact fun h _ => List.Perm.refl _
  | cons x l IH =>
    intro h hs
    rw [show pushAll h (x :: l) = pushAll (h.add x) l from rfl]
    refine (IH (h.add x) (sizeInv_add hs x)).trans ?_
    refine (List.Perm.append_left l (liveList_add_perm hs x)).trans ?_
    exact List.perm_middle

theorem getC_of_lt {α : Type} [Inhabited α] {l : List α} {i : Nat} (hi : i < l.length) :
    getC l i = some (getI l i) := by
  rw [getC, List.getElem?_eq_getElem hi, getI_eq_getElem hi]

theorem setC_of_lt {α : Type} {l : List α} {i : Nat} (hi : i < l.length) (v : α) :
    setC l i v = some (setI l i v) := by
  rw [setC, if_pos hi]
  rfl

theorem swapC_of_lt {α : Type} [Inhabited α] {l : List α} {i j : Nat}
    (hi : i < l.length) (hj : j < l.length) :
    swapC l i j = some (swapI l i j) := by
  rw [swapC, if_pos ⟨hi, hj⟩]

theorem siftUpC_eq {α : Type} [Inhabited α] (cmp : α → α → Bool) (v : α) :
    ∀ (i : Nat) (items : List α), i < items.length →
      siftUpC cmp v items i = some (siftUp cmp v items i) := by
  intro i
  induction i using Nat.strong_induction_on with
  | _ i IH =>
    intro items hlen
    rw [siftUpC, siftUp]
    by_cases h1 : 1 < i
    · rw [dif_pos h1, getC_of_lt (show i / 2 < items.length by omega)]
      by_cases hcv : cmp v (getI items (i / 2)) = true
      · rw [dif_pos ⟨h1, hcv⟩]
        simp only [hcv, if_pos]
        rw [setC_of_lt hlen]
        simp only []
        exact IH (i / 2) (by omega) _ (by rw [length_setI]; omega)
      · rw [dif_neg (by intro hx; exact hcv hx.2)]
        simp only [hcv]
        rw [if_neg (by simp)]
        exact setC_of_lt hlen v
    · rw [dif_neg h1, dif_neg (by intro hx; exact h1 hx.1)]
      exact setC_of_lt hlen v

theorem smallestChildC_eq {α : Type} [Inhabited α] (cmp : α → α → Bool)
    {items : List α} {count : Nat} (idx : Nat) (hlen : count < items.length) :
    smallestChildC cmp items count idx = some (smallestChild cmp items count idx) := by
  rw [smallestChildC, smallestChild]
  by_cases hr : idx * 2 + 1 ≤ count
  · rw [if_pos hr, getC_of_lt (show idx * 2 + 1 < items.length by omega),
      getC_of_lt (show idx * 2 < items.length by omega)]
    by_cases hb : cmp (getI items (idx * 2 + 1)) (getI items (idx * 2)) = true
    · rw [if_pos ⟨hr, hb⟩]
      simp only [hb, if_pos]
    · rw [if_neg (by intro hx; exact hb hx.2)]
      simp only [hb]
      rw [if_neg (by simp)]
  · rw [if_neg hr, if_neg (by intro hx; exact hr hx.1)]

theorem siftDownC_eq {α : Type} [Inhabited α] (cmp : α → α → Bool) (count : Nat) :
    ∀ (n : Nat) (items : List α) (i : Nat), count + 1 - i ≤ n → 1 ≤ i → count < items.length →
      siftDownC cmp count items i = some (siftDown cmp count items i) := by
  intro n
  induction n with
  | zero =>
    intro items i hn h1 hlen
    rw [siftDownC, siftDown, dif_neg (by omega), dif_neg (by omega)]
  | succ n IHn =>
    intro items i hn h1 hlen
    rw [siftDownC, siftDown]
    by_cases hg : 1 ≤ i ∧ i * 2 ≤ count
    · rw [dif_pos hg, dif_pos hg, smallestChildC_eq cmp i hlen]
      have hcb : i * 2 ≤ smallestChild cmp items count i ∧ smallestChild cmp items count i ≤ count := by
        rcases smallestChild_cases cmp items count i with ⟨hceq, _⟩ | ⟨hceq, hle, _⟩ <;> omega
      simp only []
      rw [getC_of_lt (show smallestChild cmp items count i < items.length by omega),
        getC_of_lt (show i < items.length by omega)]
      simp only []
      by_cases hc : cmp (getI items (smallestChild cmp items count i)) (getI items i) = true
      · rw [if_pos hc, if_pos hc,
          swapC_of_lt (show i < items.length by omega)
            (show smallestChild cmp items count i < items.length by omega)]
        simp only []
        exact IHn _ _ (by omega) (by omega) (by rw [length_swapI]; exact hlen)
      · rw [if_neg hc, if_neg hc]
    · rw [dif_neg hg, dif_neg hg]

theorem addC_eq {α : Type} [Inhabited α] {h : Heap α} (hsize : sizeInv h) (v : α) :
    h.addC v = some (h.add v) := by
  have hlen : h.items.length = h.count + 1 := hsize.symm
  rw [Heap.addC]
  rw [getC_of_lt (show h.count + 1 < (h.items ++ [v]).length by simp; omega)]
  simp only []
  rw [siftUpC_eq h.comparator _ (h.count + 1) (h.items ++ [v]) (by simp; omega)]
  rfl

theorem nextC_eq {α : Type} [Inhabited α] {h : Heap α} (hsize : sizeInv h) :
    h.nextC = some h.next := by
  have hlen : h.items.length = h.count + 1 := hsize.symm
  by_cases hc : h.count = 0
  · rw [Heap.nextC, Heap.next]
    have he : h.is_empty = true := by simp [Heap.is_empty, Heap.len, hc]
    rw [if_pos he, if_pos he]
  · have he : h.is_empty = false := by simp [Heap.is_empty, Heap.len, hc]
    rw [Heap.nextC, Heap.next, if_neg (by rw [he]; simp), if_neg (by rw [he]; simp)]
    rw [getC_of_lt (show 1 < h.items.length by omega)]
    simp only []
    rw [swapC_of_lt (show 1 < h.items.length by omega) (show h.count < h.items.length by omega)]
    simp only []
    rw [siftDownC_eq h.comparator (h.count - 1) (h.count) _ 1 (by omega) (by omega)
      (by rw [List.length_dropLast, length_swapI]; omega)]

theorem runOpsC_eq {α : Type} [Inhabited α] :
    ∀ (ops : List (Op α)) (h : Heap α), sizeInv h →
      runOpsC h ops = some (runOps h ops) := by
  intro ops
  induction ops with
  | nil => exact fun h _ => rfl
  | cons op ops IH =>
    intro h hsize
    cases op with
    | add v =>
      rw [runOpsC, runOps, addC_eq hsize v]
      exact IH (h.add v) (sizeInv_add hsize v)
    | extract =>
      rw [runOpsC, runOps, nextC_eq hsize]
      exact IH (h.next).2 (sizeInv_next hsize)

theorem siftUpFuel_eq {α : Type} [Inhabited α] (cmp : α → α → Bool) (v : α) :
    ∀ (i : Nat) (fuel : Nat) (items : List α), 1 ≤ i → i ≤ fuel →
      siftUpFuel cmp v fuel items i = some (siftUp cmp v items i) := by
  intro i
  induction i using Nat.strong_induction_on with
  | _ i IH =>
    intro fuel items h1 hfuel
    cases fuel with
    | zero => omega
    | succ fuel =>
      rw [siftUpFuel, siftUp]
      by_cases hg : 1 < i ∧ cmp v (getI items (i / 2)) = true
      · rw [if_pos hg, dif_pos hg]
        exact IH (i / 2) (by omega) fuel _ (by omega) (by omega)
      · rw [if_neg hg, dif_neg hg]

theorem siftDownFuel_eq {α : Type} [Inhabited α] (cmp : α → α → Bool) (count : Nat) :
    ∀ (fuel : Nat) (items : List α) (i : Nat), 1 ≤ i → count + 1 - i < fuel →
      siftDownFuel cmp count fuel items i = some (siftDown cmp count items i) := by
  intro fuel
  induction fuel with
  | zero =>
    intro items i h1 hf
    omega
  | succ fuel IH =>
    intro items i h1 hf
    rw [siftDownFuel, siftDown]
    by_cases hg : 1 ≤ i ∧ i * 2 ≤ count
    · rw [if_pos hg, dif_pos hg]
      have hcb : i * 2 ≤ smallestChild cmp items count i ∧ smallestChild cmp items count i ≤ count := by
        rcases smallestChild_cases cmp items count i with ⟨hceq, _⟩ | ⟨hceq, hle, _⟩ <;> omega
      by_cases hc : cmp (getI items (smallestChild cmp items count i)) (getI items i) = true
      · rw [if_pos hc, if_pos hc]
        exact IH _ _ (by omega) (by omega)
      · rw [if_neg hc, if_neg hc]
    · rw [if_neg hg, dif_neg hg]

theorem getI_of_ge {α : Type} [Inhabited α] {l : List α} {i : Nat} (hi : l.length ≤ i) :
    getI l i = default := by
  rw [getI, List.getD_eq_getElem?_getD, List.getElem?_eq_none hi]
  rfl

theorem setI_of_ge {α : Type} {l : List α} {i : Nat} (hi : l.length ≤ i) (v : α) :
    setI l i v = l :=
  List.set_eq_of_length_le hi

theorem setI_congr {α : Type} [Inhabited α] {l₁ l₂ : List α} (hlen : l₁.length = l₂.length)
    (hag : ∀ k, 1 ≤ k → getI l₁ k = getI l₂ k) (m : Nat) (v : α) :
    ∀ k, 1 ≤ k → getI (setI l₁ m v) k = getI (setI l₂ m v) k := by
  intro k hk
  by_cases hkm : k = m
  · subst hkm
    by_cases hkl : k < l₁.length
    · rw [getI_setI_self hkl v, getI_setI_self (by omega) v]
    · rw [setI_of_ge (by omega) v, setI_of_ge (by omega) v]
      exact hag k hk
  · rw [getI_setI_ne (by omega) v, getI_setI_ne (by omega) v]
    exact hag k hk

theorem swapI_congr {α : Type} [Inhabited α] {l₁ l₂ : List α} {i j : Nat}
    (hlen : l₁.length = l₂.length) (hag : ∀ k, 1 ≤ k → getI l₁ k = getI l₂ k)
    (hi : 1 ≤ i) (hj : 1 ≤ j) :
    ∀ k, 1 ≤ k → getI (swapI l₁ i j) k = getI (swapI l₂ i j) k := by
  intro k hk
  rw [swapI, swapI, hag j hj, hag i hi]
  exact setI_congr (by rw [length_setI, length_setI, hlen])
    (setI_congr hlen hag i (getI l₂ j)) j (getI l₂ i) k hk

theorem siftUp_congr {α : Type} [Inhabited α] (cmp : α → α → Bool) (v : α) :
    ∀ (i : Nat) (l₁ l₂ : List α), l₁.length = l₂.length →
      (∀ k, 1 ≤ k → getI l₁ k = getI l₂ k) → 1 ≤ i →
      ∀ k, 1 ≤ k → getI (siftUp cmp v l₁ i) k = getI (siftUp cmp v l₂ i) k := by
  intro i
  induction i using Nat.strong_induction_on with
  | _ i IH =>
    intro l₁ l₂ hlen hag h1
    intro k hk
    by_cases hg : 1 < i ∧ cmp v (getI l₁ (i / 2)) = true
    · have hg2 : 1 < i ∧ cmp v (getI l₂ (i / 2)) = true :=
        ⟨hg.1, by rw [← hag (i / 2) (by omega)]; exact hg.2⟩
      conv_lhs => rw [siftUp, dif_pos hg]
      conv_rhs => rw [siftUp, dif_pos hg2]
      rw [hag (i / 2) (by omega)]
      exact IH (i / 2) (by omega) _ _ (by rw [length_setI, length_setI, hlen])
        (setI_congr hlen hag i (getI l₂ (i / 2))) (by omega) k hk
    · have hg2 : ¬(1 < i ∧ cmp v (getI l₂ (i / 2)) = true) := by
        intro hx
        exact hg ⟨hx.1, by rw [hag (i / 2) (by omega)]; exact hx.2⟩
      conv_lhs => rw [siftUp, dif_neg hg]
      conv_rhs => rw [siftUp, dif_neg hg2]
      exact setI_congr hlen hag i v k hk

theorem smallestChild_congr {α : Type} [Inhabited α] (cmp : α → α → Bool) {l₁ l₂ : List α}
    (hag : ∀ k, 1 ≤ k → getI l₁ k = getI l₂ k) (count idx : Nat) (hidx : 1 ≤ idx) :
    smallestChild cmp l₁ count idx = smallestChild cmp l₂ count idx := by
  simp only [smallestChild]
  rw [hag (idx * 2 + 1) (by omega), hag (idx * 2) (by omega)]

theorem siftDown_congr {α : Type} [Inhabited α] (cmp : α → α → Bool) (count : Nat) :
    ∀ (n : Nat) (l₁ l₂ : List α) (i : Nat), count + 1 - i ≤ n → 1 ≤ i →
      l₁.length = l₂.length → (∀ k, 1 ≤ k → getI l₁ k = getI l₂ k) →
      ∀ k, 1 ≤ k → getI (siftDown cmp count l₁ i) k = getI (siftDown cmp count l₂ i) k := by
  intro n
  induction n with
  | zero =>
    intro l₁ l₂ i hn h1 hlen hag
    intro k hk
    conv_lhs => rw [siftDown, dif_neg (show ¬(1 ≤ i ∧ i * 2 ≤ count) from by omega)]
    conv_rhs => rw [siftDown, dif_neg (show ¬(1 ≤ i ∧ i * 2 ≤ count) from by omega)]
    exact hag k hk
  | succ n IHn =>
    intro l₁ l₂ i hn h1 hlen hag
    intro k hk
    by_cases hg : 1 ≤ i ∧ i * 2 ≤ count
    · conv_lhs => rw [siftDown, dif_pos hg]
      conv_rhs => rw [siftDown, dif_pos hg]
      dsimp only
      have hsc : smallestChild cmp l₂ count i = smallestChild cmp l₁ count i :=
        (smallestChild_congr cmp hag count i h1).symm
      rw [hsc]
      have hcb : i * 2 ≤ smallestChild cmp l₁ count i ∧ smallestChild cmp l₁ count i ≤ count := by
        rcases smallestChild_cases cmp l₁ count i with ⟨hceq, _⟩ | ⟨hceq, hle, _⟩ <;> omega
      rw [hag (smallestChild cmp l₁ count i) (by omega), hag i (by omega)]
      by_cases hc : cmp (getI l₂ (smallestChild cmp l₁ count i)) (getI l₂ i) = true
      · rw [if_pos hc, if_pos hc]
        exact IHn _ _ _ (by omega) (by omega)
          (by rw [length_swapI, length_swapI, hlen])
          (swapI_congr hlen hag h1 (by omega)) k hk
      · rw [if_neg hc, if_neg hc]
        exact hag k hk
    · conv_lhs => rw [siftDown, dif_neg hg]
      conv_rhs => rw [siftDown, dif_neg hg]
      exact hag k hk

theorem dropLast_congr {α : Type} [Inhabited α] {l₁ l₂ : List α}
    (hlen : l₁.length = l₂.length) (hag : ∀ k, 1 ≤ k → getI l₁ k = getI l₂ k) :
    ∀ k, 1 ≤ k → getI l₁.dropLast k = getI l₂.dropLast k := by
  intro k hk
  by_cases hkl : k < l₁.length - 1
  · rw [getI_dropLast hkl, getI_dropLast (by omega)]
    exact hag k hk
  · rw [getI_of_ge (by rw [List.length_dropLast]; omega),
      getI_of_ge (by rw [List.length_dropLast]; omega)]

theorem append_singleton_congr {α : Type} [Inhabited α] {l₁ l₂ : List α}
    (hlen : l₁.length = l₂.length) (hag : ∀ k, 1 ≤ k → getI l₁ k = getI l₂ k) (v : α) :
    ∀ k, 1 ≤ k → getI (l₁ ++ [v]) k = getI (l₂ ++ [v]) k := by
  intro k hk
  by_cases hkl : k < l₁.length
  · rw [getI_append_left hkl v, getI_append_left (by omega) v]
    exact hag k hk
  · by_cases hke : k = l₁.length
    · subst hke
      rw [getI_append_self, hlen, getI_append_self]
    · rw [getI_of_ge (by simp; omega), getI_of_ge (by simp; omega)]

theorem add_congr {α : Type} [Inhabited α] {h₁ h₂ : Heap α} (v : α)
    (hc : h₁.count = h₂.count) (hcm : h₁.comparator = h₂.comparator)
    (hlen : h₁.items.length = h₂.items.length)
    (hag : ∀ k, 1 ≤ k → getI h₁.items k = getI h₂.items k) :
    (h₁.add v).count = (h₂.add v).count ∧
      (h₁.add v).comparator = (h₂.add v).comparator ∧
      (h₁.add v).items.length = (h₂.add v).items.length ∧
      ∀ k, 1 ≤ k → getI (h₁.add v).items k = getI (h₂.add v).items k := by
  have hplen : (h₁.items ++ [v]).length = (h₂.items ++ [v]).length := by simp [hlen]
  have hpag := append_singleton_congr hlen hag v
  refine ⟨by rw [Heap.add_count, Heap.add_count, hc],
    by rw [Heap.add_comparator, Heap.add_comparator, hcm], ?_, ?_⟩
  · rw [Heap.add_items_length, Heap.add_items_length, hlen]
  · intro k hk
    rw [Heap.add_items, Heap.add_items, hcm, hc, hpag (h₂.count + 1) (by omega)]
    exact siftUp_congr h₂.comparator _ (h₂.count + 1) _ _ hplen hpag (by omega) k hk

theorem next_congr {α : Type} [Inhabited α] {h₁ h₂ : Heap α}
    (hc : h₁.count = h₂.count) (hcm : h₁.comparator = h₂.comparator)
    (hlen : h₁.items.length = h₂.items.length)
    (hag : ∀ k, 1 ≤ k → getI h₁.items k = getI h₂.items k) :
    (h₁.next).1 = (h₂.next).1 ∧
      (h₁.next).2.count = (h₂.next).2.count ∧
      (h₁.next).2.comparator = (h₂.next).2.comparator ∧
      (h₁.next).2.items.length = (h₂.next).2.items.length ∧
      ∀ k, 1 ≤ k → getI (h₁.next).2.items k = getI (h₂.next).2.items k := by
  by_cases hz : h₁.count = 0
  · rw [Heap.next_of_empty h₁ hz, Heap.next_of_empty h₂ (by omega)]
    exact ⟨rfl, hc, hcm, hlen, hag⟩
  · rw [Heap.next_of_pos h₁ hz, Heap.next_of_pos h₂ (by omega)]
    dsimp only
    rw [← hc]
    have hsw := swapI_congr hlen hag (le_refl 1) (show 1 ≤ h₁.count by omega)
    have hswlen : (swapI h₁.items 1 h₁.count).length = (swapI h₂.items 1 h₁.count).length := by
      rw [length_swapI, length_swapI, hlen]
    have hdl := dropLast_congr hswlen hsw
    have hdllen : (swapI h₁.items 1 h₁.count).dropLast.length =
        (swapI h₂.items 1 h₁.count).dropLast.length := by
      rw [List.length_dropLast, List.length_dropLast, hswlen]
    refine ⟨by rw [hag 1 (le_refl 1)], rfl, hcm, ?_, ?_⟩
    · rw [siftDown_length, siftDown_length, hdllen]
    · intro k hk
      rw [hcm]
      exact siftDown_congr h₂.comparator (h₁.count - 1) h₁.count _ _ 1 (by omega)
        (le_refl 1) hdllen hdl k hk

theorem runTrace_congr {α : Type} [Inhabited α] :
    ∀ (qops : List (QOp α)) (h₁ h₂ : Heap α), h₁.count = h₂.count →
      h₁.comparator = h₂.comparator → h₁.items.length = h₂.items.length →
      (∀ k, 1 ≤ k → getI h₁.items k = getI h₂.items k) →
      runTrace h₁ qops = runTrace h₂ qops := by
  intro qops
  induction qops with
  | nil => exact fun _ _ _ _ _ _ => rfl
  | cons q qops IH =>
    intro h₁ h₂ hc hcm hlen hag
    cases q with
    | len =>
      rw [runTrace, runTrace, IH h₁ h₂ hc hcm hlen hag, Heap.len, Heap.len, hc]
    | is_empty =>
      rw [runTrace, runTrace, IH h₁ h₂ hc hcm hlen hag, Heap.is_empty, Heap.is_empty,
        Heap.len, Heap.len, hc]
    | add v =>
      obtain ⟨h1, h2, h3, h4⟩ := add_congr v hc hcm hlen hag
      rw [runTrace, runTrace, IH (h₁.add v) (h₂.add v) h1 h2 h3 h4]
    | extract =>
      obtain ⟨h0, h1, h2, h3, h4⟩ := next_congr hc hcm hlen hag
      rw [runTrace, runTrace, IH (h₁.next).2 (h₂.next).2 h1 h2 h3 h4, h0]

theorem drain_new_sorted_perm {α : Type} [Inhabited α] (cmp : α → α → Bool)
    (hs : IsSWO cmp) (l : List α) :
    List.Sorted (below cmp) (drain (pushAll (Heap.new cmp) l)) ∧
      List.Perm (drain (pushAll (Heap.new cmp) l)) l := by
  have hcmp : (pushAll (Heap.new cmp) l).comparator = cmp := by
    rw [pushAll_comparator]
    rfl
  have hsz : sizeInv (pushAll (Heap.new cmp) l) :=
    pushAll_sizeInv l _ (sizeInv_new cmp)
  have hinv : heapInvariant (pushAll (Heap.new cmp) l) :=
    pushAll_heapInvariant l _ hs (sizeInv_new cmp) (heapInvariant_new cmp)
  obtain ⟨hsort, hperm⟩ := drainFuel_sorted_perm (pushAll (Heap.new cmp) l).count _
    (by rw [hcmp]; exact hs) hsz hinv (le_refl _)
  rw [drain]
  constructor
  · rw [hcmp] at hsort
    exact hsort
  · refine hperm.trans ?_
    have hp := pushAll_liveList_perm l (Heap.new cmp) (sizeInv_new cmp)
    rw [liveList_of_count_zero (show (Heap.new cmp).count = 0 from rfl), List.append_nil] at hp
    exact hp

/-- C1: inserting any finite list of elements of a linearly ordered type
into a heap built by `new_min` (equivalently `MinHeap::new`) and then
draining it by repeated `Iterator::next` yields exactly those elements in
non-decreasing order; a heap built by `new_max` (equivalently
`MaxHeap::new`) yields them in non-increasing order. -/
theorem C1_sorted_extraction {α : Type} [Inhabited α] [LinearOrder α] (l : List α) :
    (List.Sorted (fun a b => a ≤ b) (drain (pushAll (Heap.new_min : Heap α) l)) ∧
      List.Perm (drain (pushAll (Heap.new_min : Heap α) l)) l) ∧
    (List.Sorted (fun a b => b ≤ a) (drain (pushAll (Heap.new_max : Heap α) l)) ∧
      List.Perm (drain (pushAll (Heap.new_max : Heap α) l)) l) ∧
    drain (pushAll (MinHeap.new : Heap α) l) = drain (pushAll (Heap.new_min : Heap α) l) ∧
    drain (pushAll (MaxHeap.new : Heap α) l) = drain (pushAll (Heap.new_max : Heap α) l) := by
  obtain ⟨hmins, hminp⟩ := drain_new_sorted_perm (fun a b : α => decide (a < b)) isSWO_lt l
  obtain ⟨hmaxs, hmaxp⟩ := drain_new_sorted_perm (fun a b : α => decide (a > b)) isSWO_gt l
  refine ⟨⟨?_, hminp⟩, ⟨?_, hmaxp⟩, rfl, rfl⟩
  · refine List.Pairwise.imp ?_ hmins
    intro a b hab
    rw [below] at hab
    simp only [decide_eq_false_iff_not] at hab
    exact le_of_not_lt hab
  · refine List.Pairwise.imp ?_ hmaxs
    intro a b hab
    rw [below] at hab
    simp only [decide_eq_false_iff_not] at hab
    exact le_of_not_lt hab

/-- C2: starting from `Heap::new` with a strict-weak-ordering comparator,
after every sequence of `add` and `Iterator::next` operations the heap
invariant holds: no live child is strictly favoured by the comparator over
its parent (for every parent index `i ≥ 1` and child index `2i` or `2i+1`
that is at most `count`). -/
theorem C2_invariant_preservation {α : Type} [Inhabited α] {cmp : α → α → Bool}
    (hs : IsSWO cmp) (ops : List (Op α)) :
    heapInvariant (runOps (Heap.new cmp) ops) :=
  runOps_heapInvariant ops (Heap.new cmp) hs (sizeInv_new cmp) (heapInvariant_new cmp)

theorem C2_witness :
    heapInvariant (runOps (Heap.new (fun a b : Int => decide (a < b)))
      [Op.add 5, Op.add 2, Op.add 8, Op.extract, Op.add 1]) :=
  C2_invariant_preservation isSWO_lt _

/-- C3: for every comparator and operation sequence from a fresh heap,
`len()` equals the number of `add` calls minus the number of successful
extractions, successful extractions never exceed `add` calls, and
`is_empty()` returns true exactly when `len()` is zero. -/
theorem C3_count_correctness {α : Type} [Inhabited α] (cmp : α → α → Bool) (ops : List (Op α)) :
    (runOps (Heap.new cmp) ops).len = numAdds ops - numHits (Heap.new cmp) ops ∧
      numHits (Heap.new cmp) ops ≤ numAdds ops ∧
      ∀ h : Heap α, h.is_empty = true ↔ h.len = 0 := by
  have hcount := count_runOps (Heap.new cmp) ops
  have hc0 : (Heap.new cmp).count = 0 := rfl
  refine ⟨?_, by omega, ?_⟩
  · rw [Heap.len]
    omega
  · intro h
    rw [Heap.is_empty]
    simp

/-- C4: extraction from a heap with `len() = 0` returns `None` and leaves
the state unchanged, and any number of repeated extractions past
exhaustion keeps returning `None` without changing the state. -/
theorem C4_empty_extraction {α : Type} [Inhabited α] {h : Heap α} (hz : h.len = 0) :
    h.next = (none, h) ∧
      (∀ n, runOps h (List.replicate n Op.extract) = h) ∧
      (∀ n, runTrace h (List.replicate n QOp.extract) =
        List.replicate n (Obs.extracted (none : Option α))) := by
  have hc : h.count = 0 := hz
  have hnext : h.next = (none, h) := Heap.next_of_empty h hc
  refine ⟨hnext, ?_, ?_⟩
  · intro n
    induction n with
    | zero => rfl
    | succ n IH =>
      rw [List.replicate_succ, runOps, hnext]
      exact IH
  · intro n
    induction n with
    | zero => rfl
    | succ n IH =>
      rw [List.replicate_succ, runTrace, hnext, List.replicate_succ]
      rw [IH]

theorem C4_witness :
    (Heap.new (fun a b : Int => decide (a < b))).next =
        (none, Heap.new (fun a b : Int => decide (a < b))) ∧
      (∀ n, runOps (Heap.new (fun a b : Int => decide (a < b)))
          (List.replicate n Op.extract) = Heap.new (fun a b : Int => decide (a < b))) ∧
      (∀ n, runTrace (Heap.new (fun a b : Int => decide (a < b)))
          (List.replicate n QOp.extract) = List.replicate n (Obs.extracted (none : Option Int))) :=
  C4_empty_extraction rfl

/-- C5: under every comparator whatsoever and every operation sequence,
all storage accesses stay in bounds: the bounds-checked semantics (which
fails exactly where Rust indexing would panic) never fails and agrees
with the total semantics. -/
theorem C5_memory_safety {α : Type} [Inhabited α] (cmp : α → α → Bool) (ops : List (Op α)) :
    runOpsC (Heap.new cmp) ops = some (runOps (Heap.new cmp) ops) :=
  runOpsC_eq ops (Heap.new cmp) (sizeInv_new cmp)

/-- C6: all operations terminate and are deterministic: the sift-up loop
started at index `i` exits within `i` iterations, the sift-down loop
started at the root exits within `count + 1` iterations (the fuel-indexed
loops return `some` and agree with the loop results), and the result of
every operation is a function of the heap fields and comparator alone. -/
theorem C6_termination {α : Type} [Inhabited α] (cmp : α → α → Bool) (v : α)
    (count : Nat) (items : List α) (i : Nat) (h1 : 1 ≤ i) :
    siftUpFuel cmp v i items i = some (siftUp cmp v items i) ∧
      siftDownFuel cmp count (count + 1) items 1 = some (siftDown cmp count items 1) ∧
      ∀ h₁ h₂ : Heap α, h₁.count = h₂.count → h₁.items = h₂.items →
        h₁.comparator = h₂.comparator →
        h₁.next = h₂.next ∧ h₁.add v = h₂.add v ∧ h₁.len = h₂.len ∧
          h₁.is_empty = h₂.is_empty := by
  refine ⟨siftUpFuel_eq cmp v i i items h1 (le_refl i),
    siftDownFuel_eq cmp count (count + 1) items 1 (le_refl 1) (by omega), ?_⟩
  intro h₁ h₂ hc hi hcm
  have he : h₁ = h₂ := by
    cases h₁
    cases h₂
    simp_all
  subst he
  exact ⟨rfl, rfl, rfl, rfl⟩

theorem C6_witness :
    siftUpFuel (fun a b : Int => decide (a < b)) 0 2 [0, 2, 1, 5] 2 =
        some (siftUp (fun a b : Int => decide (a < b)) 0 [0, 2, 1, 5] 2) ∧
      siftDownFuel (fun a b : Int => decide (a < b)) 3 4 [0, 2, 1, 5] 1 =
        some (siftDown (fun a b : Int => decide (a < b)) 3 [0, 2, 1, 5] 1) ∧
      ∀ h₁ h₂ : Heap Int, h₁.count = h₂.count → h₁.items = h₂.items →
        h₁.comparator = h₂.comparator →
        h₁.next = h₂.next ∧ h₁.add 0 = h₂.add 0 ∧ h₁.len = h₂.len ∧
          h₁.is_empty = h₂.is_empty :=
  C6_termination (fun a b : Int => decide (a < b)) 0 3 [0, 2, 1, 5] 2 (by decide)

/-- C9: after every operation sequence from a fresh heap the storage holds
exactly one sentinel slot plus the live elements, `count + 1 = length`,
and in particular `0 ≤ count ≤ length - 1`. -/
theorem C9_size_relation {α : Type} [Inhabited α] (cmp : α → α → Bool) (ops : List (Op α)) :
    (runOps (Heap.new cmp) ops).count + 1 = (runOps (Heap.new cmp) ops).items.length ∧
      (runOps (Heap.new cmp) ops).count ≤ (runOps (Heap.new cmp) ops).items.length - 1 := by
  have hs := sizeInv_runOps (sizeInv_new cmp) ops
  rw [sizeInv] at hs
  exact ⟨hs, by omega⟩

/-- C10: the sentinel slot at index 0 is never consulted: two heaps that
agree on `count`, the comparator, the storage length and every storage
index from 1 up — hence may differ only at index 0 — produce identical
return values under every sequence of `len`, `is_empty`, `add` and
extraction calls. -/
theorem C10_sentinel_irrelevant {α : Type} [Inhabited α] {h₁ h₂ : Heap α}
    (hc : h₁.count = h₂.count) (hcm : h₁.comparator = h₂.comparator)
    (hlen : h₁.items.length = h₂.items.length)
    (hag : ∀ k, 1 ≤ k → getI h₁.items k = getI h₂.items k)
    (qops : List (QOp α)) :
    runTrace h₁ qops = runTrace h₂ qops :=
  runTrace_congr qops h₁ h₂ hc hcm hlen hag

theorem C10_witness :
    runTrace (Heap.mk 2 [7, 1, 2] (fun a b : Int => decide (a < b)))
        [QOp.len, QOp.extract, QOp.is_empty, QOp.extract, QOp.extract, QOp.add 5, QOp.extract] =
      runTrace (Heap.mk 2 [9, 1, 2] (fun a b : Int => decide (a < b)))
        [QOp.len, QOp.extract, QOp.is_empty, QOp.extract, QOp.extract, QOp.add 5, QOp.extract] :=
  @C10_sentinel_irrelevant Int _
    (Heap.mk 2 [7, 1, 2] (fun a b : Int => decide (a < b)))
    (Heap.mk 2 [9, 1, 2] (fun a b : Int => decide (a < b))) rfl rfl rfl
    (fun k hk => by
      rcases k with _ | _ | _ | n
      · exact absurd hk (by decide)
      · rfl
      · rfl
      · rfl) _

/-- C7: the concrete round-trip scenario over a min-heap of integers:
after `add 4, add 2, add 9, add 11` the length is 4; the next three
extractions return `Some 2`, `Some 4`, `Some 9`; after a further `add 1`
the following extraction returns `Some 1`, the final one `Some 11`, and
the heap is then empty. -/
theorem C7_round_trip :
    (((((Heap.new_min : Heap Int).add 4).add 2).add 9).add 11).len = 4 ∧
      ((((((Heap.new_min : Heap Int).add 4).add 2).add 9).add 11).next).1 = some 2 ∧
      (((((((Heap.new_min : Heap Int).add 4).add 2).add 9).add 11).next).2.next).1 = some 4 ∧
      ((((((((Heap.new_min : Heap Int).add 4).add 2).add 9).add 11).next).2.next).2.next).1 =
        some 9 ∧
      ((((((((((Heap.new_min : Heap Int).add 4).add 2).add 9).add 11).next).2.next).2.next).2.add
        1).next).1 = some 1 ∧
      (((((((((((Heap.new_min : Heap Int).add 4).add 2).add 9).add 11).next).2.next).2.next).2.add
        1).next).2.next).1 = some 11 ∧
      (((((((((((Heap.new_min : Heap Int).add 4).add 2).add 9).add 11).next).2.next).2.next).2.add
        1).next).2.next).2.is_empty = true := by
  refine ⟨?_, ?_, ?_, ?_, ?_, ?_, ?_⟩ <;>
    simp [Heap.new_min, Heap.new, Heap.add, Heap.next, siftUp, siftDown, smallestChild,
      getI, setI, swapI, Heap.is_empty, Heap.len]

/-- C8: child selection during sift-down: when both children are live the
selected index is the right child `2i+1` exactly when the comparator
strictly favours the right child over the left child, and the left child
`2i` otherwise (ties included); when only the left child exists it is
always selected. -/
theorem C8_child_selection {α : Type} [Inhabited α] (h : Heap α) (idx : Nat) :
    (2 * idx + 1 ≤ h.count →
      h.smallest_child_idx idx =
        if h.comparator (getI h.items (2 * idx + 1)) (getI h.items (2 * idx)) = true
        then 2 * idx + 1 else 2 * idx) ∧
    (2 * idx ≤ h.count → h.count < 2 * idx + 1 → h.smallest_child_idx idx = 2 * idx) := by
  constructor
  · intro hr
    rw [Heap.smallest_child_idx]
    simp only [smallestChild]
    rw [show idx * 2 + 1 = 2 * idx + 1 from by ring, show idx * 2 = 2 * idx from by ring]
    by_cases hb : h.comparator (getI h.items (2 * idx + 1)) (getI h.items (2 * idx)) = true
    · rw [if_pos ⟨hr, hb⟩, if_pos hb]
    · rw [if_neg (fun hx => hb hx.2), if_neg hb]
  · intro hl hr
    rw [Heap.smallest_child_idx]
    simp only [smallestChild]
    rw [if_neg (fun hx => by omega)]
    omega

theorem C8_witness :
    ((Heap.mk 3 ([0, 5, 3, 4] : List Int) (fun a b => decide (a < b))).smallest_child_idx 1 =
        if (Heap.mk 3 ([0, 5, 3, 4] : List Int) (fun a b => decide (a < b))).comparator
            (getI (Heap.mk 3 ([0, 5, 3, 4] : List Int) (fun a b => decide (a < b))).items 3)
            (getI (Heap.mk 3 ([0, 5, 3, 4] : List Int) (fun a b => decide (a < b))).items 2) = true
        then 3 else 2) ∧
      (Heap.mk 2 ([0, 5, 3] : List Int) (fun a b => decide (a < b))).smallest_child_idx 1 = 2 :=
  ⟨(C8_child_selection (Heap.mk 3 ([0, 5, 3, 4] : List Int) (fun a b => decide (a < b))) 1).1
      (by decide),
    (C8_child_selection (Heap.mk 2 ([0, 5, 3] : List Int) (fun a b => decide (a < b))) 1).2
      (by decide) (by decide)⟩
